import Mathlib

/-!
Verification of the routing notebook `docs/qaoa/Routing-with-Tket.ipynb`
and its CI workflow.  The notebook routes a 10-qubit QAOA circuit onto a
grid device: it numbers the device qubits contiguously
(`index_to_qubit` / `qubit_to_index`), converts the circuit and device to
the tket representation, applies a placement pass followed by a routing
pass, decodes the resulting qubit maps (`tk_to_i`), checks that every
two-qubit operation of the routed circuit acts on adjacent device qubits,
and finally checks that the routed circuit with a trailing permutation
gate has the same unitary as the original circuit up to a global phase.
-/

namespace RoutingWithTket

/-- A Cirq grid qubit, addressed by hardware row/column coordinates. -/
structure GridQubit where
  row : Int
  col : Int
deriving DecidableEq, Repr

/-- Cirq orders grid qubits by their `(row, col)` key, lexicographically
(non-strict version, used for `sorted`). -/
def GridQubit.le (a b : GridQubit) : Prop :=
  a.row < b.row ∨ (a.row = b.row ∧ a.col ≤ b.col)

/-- Strict lexicographic order on grid qubits. -/
def GridQubit.lt (a b : GridQubit) : Prop :=
  a.row < b.row ∨ (a.row = b.row ∧ a.col < b.col)

instance : DecidableRel GridQubit.le := fun a b => by
  unfold GridQubit.le; exact inferInstance

instance : DecidableRel GridQubit.lt := fun a b => by
  unfold GridQubit.lt; exact inferInstance

instance : IsTotal GridQubit GridQubit.le := by
  constructor
  intro a b
  unfold GridQubit.le
  omega

instance : IsTrans GridQubit GridQubit.le := by
  constructor
  intro a b c hab hbc
  unfold GridQubit.le at *
  omega

instance : IsAntisymm GridQubit GridQubit.le := by
  constructor
  intro a b hab hba
  unfold GridQubit.le at *
  have hr : a.row = b.row := by omega
  have hc : a.col = b.col := by omega
  cases a; cases b; simp_all

theorem GridQubit.lt_le_asymm {a b : GridQubit} (h1 : GridQubit.lt a b)
    (h2 : GridQubit.le b a) : False := by
  unfold GridQubit.lt GridQubit.le at *
  omega

/-- `index_to_qubit = sorted(device.qubit_set())`: the device qubits in
ascending order, indexed contiguously from zero.  The device qubit set is
passed in as a duplicate-free list. -/
def index_to_qubit (devQubits : List GridQubit) : List GridQubit :=
  List.insertionSort GridQubit.le devQubits

/-- `qubit_to_index = {q: i for i, q in enumerate(index_to_qubit)}`:
position of a device qubit in the sorted list. -/
def qubit_to_index (devQubits : List GridQubit) (q : GridQubit) : Nat :=
  (index_to_qubit devQubits).indexOf q

theorem index_to_qubit_perm (devQubits : List GridQubit) :
    (index_to_qubit devQubits).Perm devQubits :=
  List.perm_insertionSort _ _

theorem index_to_qubit_nodup (devQubits : List GridQubit)
    (hnd : devQubits.Nodup) : (index_to_qubit devQubits).Nodup :=
  (index_to_qubit_perm devQubits).nodup_iff.mpr hnd

theorem index_to_qubit_sorted (devQubits : List GridQubit) :
    (index_to_qubit devQubits).Sorted GridQubit.le :=
  List.sorted_insertionSort _ _

theorem map_indexOf_self_eq_range {α : Type} [DecidableEq α]
    (l : List α) (hnd : l.Nodup) :
    l.map (fun a => l.indexOf a) = List.range l.length := by
  apply List.ext_getElem
  · simp
  · intro i h1 h2
    simp only [List.getElem_map, List.getElem_range]
    exact List.indexOf_getElem hnd i (by simpa using h1)

/-- C3: the index mapping is a bijective lookup table.  For a
duplicate-free device qubit list: looking an assigned index back up in
`index_to_qubit` recovers the qubit; looking a listed qubit up in
`qubit_to_index` recovers its index; and the assigned indices are exactly
the contiguous range `0..n-1` where `n` is the number of device qubits. -/
theorem C3_index_mapping_bijective (devQubits : List GridQubit)
    (hnd : devQubits.Nodup) :
    (∀ q ∈ devQubits,
        (index_to_qubit devQubits)[qubit_to_index devQubits q]? = some q) ∧
    (∀ i : Nat, ∀ q : GridQubit,
        (index_to_qubit devQubits)[i]? = some q →
        qubit_to_index devQubits q = i) ∧
    ((devQubits.map (qubit_to_index devQubits)).Perm
        (List.range devQubits.length)) := by
  have hsnd : (index_to_qubit devQubits).Nodup := index_to_qubit_nodup _ hnd
  refine ⟨?_, ?_, ?_⟩
  · intro q hq
    have hmem : q ∈ index_to_qubit devQubits :=
      (index_to_qubit_perm devQubits).mem_iff.mpr hq
    have hlt : (index_to_qubit devQubits).indexOf q <
        (index_to_qubit devQubits).length :=
      List.indexOf_lt_length.mpr hmem
    show (index_to_qubit devQubits)[(index_to_qubit devQubits).indexOf q]? =
      some q
    rw [List.getElem?_eq_getElem hlt]
    exact congrArg some (List.getElem_indexOf hlt)
  · intro i q hget
    have hlt : i < (index_to_qubit devQubits).length := by
      by_contra hge
      rw [List.getElem?_eq_none (Nat.le_of_not_lt hge)] at hget
      exact Option.noConfusion hget
    rw [List.getElem?_eq_getElem hlt] at hget
    have hq : (index_to_qubit devQubits)[i] = q := Option.some.inj hget
    rw [qubit_to_index, ← hq]
    exact List.indexOf_getElem hsnd i hlt
  · have hlen : (index_to_qubit devQubits).length = devQubits.length :=
      (index_to_qubit_perm devQubits).length_eq
    have hmap : ((index_to_qubit devQubits).map
        (qubit_to_index devQubits)).Perm
        (devQubits.map (qubit_to_index devQubits)) :=
      (index_to_qubit_perm devQubits).map _
    have heq : (index_to_qubit devQubits).map (qubit_to_index devQubits) =
        List.range devQubits.length := by
      rw [← hlen]
      exact map_indexOf_self_eq_range _ hsnd
    exact (hmap.symm.trans (heq ▸ List.Perm.refl _))

/-- Closed witness for C3 on a three-qubit device list. -/
theorem C3_index_mapping_bijective_witness :
    ([⟨1, 2⟩, ⟨0, 5⟩, ⟨1, 1⟩] : List GridQubit).Nodup ∧
    ((∀ q ∈ ([⟨1, 2⟩, ⟨0, 5⟩, ⟨1, 1⟩] : List GridQubit),
        (index_to_qubit [⟨1, 2⟩, ⟨0, 5⟩, ⟨1, 1⟩])[qubit_to_index
          [⟨1, 2⟩, ⟨0, 5⟩, ⟨1, 1⟩] q]? = some q) ∧
    (∀ i : Nat, ∀ q : GridQubit,
        (index_to_qubit [⟨1, 2⟩, ⟨0, 5⟩, ⟨1, 1⟩])[i]? = some q →
        qubit_to_index [⟨1, 2⟩, ⟨0, 5⟩, ⟨1, 1⟩] q = i) ∧
    ((([⟨1, 2⟩, ⟨0, 5⟩, ⟨1, 1⟩] : List GridQubit).map
        (qubit_to_index [⟨1, 2⟩, ⟨0, 5⟩, ⟨1, 1⟩])).Perm
        (List.range ([⟨1, 2⟩, ⟨0, 5⟩, ⟨1, 1⟩] : List GridQubit).length))) :=
  ⟨by decide, C3_index_mapping_bijective _ (by decide)⟩

/-- C10: because `index_to_qubit` is built by sorting the device qubit
set, index assignment is order-preserving: a strictly smaller device
qubit receives a strictly smaller index. -/
theorem C10_index_assignment_order_preserving (devQubits : List GridQubit)
    (hnd : devQubits.Nodup) (q1 q2 : GridQubit)
    (h1 : q1 ∈ devQubits) (h2 : q2 ∈ devQubits)
    (hlt : GridQubit.lt q1 q2) :
    qubit_to_index devQubits q1 < qubit_to_index devQubits q2 := by
  show (index_to_qubit devQubits).indexOf q1 <
    (index_to_qubit devQubits).indexOf q2
  set l := index_to_qubit devQubits with hl
  have hsnd : l.Nodup := index_to_qubit_nodup _ hnd
  have hm1 : q1 ∈ l := (index_to_qubit_perm devQubits).mem_iff.mpr h1
  have hm2 : q2 ∈ l := (index_to_qubit_perm devQubits).mem_iff.mpr h2
  have hi1 : l.indexOf q1 < l.length := List.indexOf_lt_length.mpr hm1
  have hi2 : l.indexOf q2 < l.length := List.indexOf_lt_length.mpr hm2
  by_contra hge
  rcases Nat.lt_or_ge (l.indexOf q2) (l.indexOf q1) with hcase | hcase
  · have hle : GridQubit.le (l.get ⟨l.indexOf q2, hi2⟩)
        (l.get ⟨l.indexOf q1, hi1⟩) :=
      (index_to_qubit_sorted devQubits).rel_get_of_lt hcase
    rw [List.indexOf_get hi1, List.indexOf_get hi2] at hle
    exact GridQubit.lt_le_asymm hlt hle
  · have heq : l.indexOf q1 = l.indexOf q2 := Nat.le_antisymm
      hcase (Nat.le_of_not_lt hge)
    have hq12 : q1 = q2 := (List.indexOf_inj hm1 hm2).mp heq
    subst hq12
    exact GridQubit.lt_le_asymm hlt (by unfold GridQubit.le; omega)

/-- Closed witness for C10: qubit (0,5) sorts before qubit (1,1). -/
theorem C10_index_assignment_order_preserving_witness :
    ([⟨1, 2⟩, ⟨0, 5⟩, ⟨1, 1⟩] : List GridQubit).Nodup ∧
    GridQubit.lt ⟨0, 5⟩ ⟨1, 1⟩ ∧
    qubit_to_index [⟨1, 2⟩, ⟨0, 5⟩, ⟨1, 1⟩] ⟨0, 5⟩ <
      qubit_to_index [⟨1, 2⟩, ⟨0, 5⟩, ⟨1, 1⟩] ⟨1, 1⟩ :=
  ⟨by decide, by decide,
    C10_index_assignment_order_preserving _ (by decide) _ _
      (by decide) (by decide) (by decide)⟩

/-- `GridQubit.is_adjacent`: qubits are adjacent iff they are one unit
apart on the grid (Manhattan distance exactly 1). -/
def is_adjacent (a b : GridQubit) : Bool :=
  (a.row - b.row).natAbs + (a.col - b.col).natAbs == 1

theorem is_adjacent_symm (a b : GridQubit) :
    is_adjacent a b = is_adjacent b a := by
  unfold is_adjacent
  have hr : (a.row - b.row).natAbs = (b.row - a.row).natAbs := by omega
  have hc : (a.col - b.col).natAbs = (b.col - a.col).natAbs := by omega
  rw [hr, hc]

/-- An operation of the routed cirq circuit: a gate applied to one or to
two device qubits (all gates in the routed circuit have arity 1 or 2). -/
inductive Op
  | g1 (q : GridQubit)
  | g2 (a b : GridQubit)
deriving DecidableEq, Repr

/-- An operation of a tket circuit, whose qubits are the secret
contiguous device indices. -/
inductive TkOp
  | g1 (q : Nat)
  | g2 (a b : Nat)
deriving DecidableEq, Repr

/-- The adjacency assertion loop of the notebook: every operation whose
gate is a two-qubit gate acts on a pair of adjacent qubits. -/
def adjacency_check (c : List Op) : Bool :=
  c.all fun op => match op with
    | .g1 _ => true
    | .g2 a b => is_adjacent a b

/-- The device graph edges translated to secret indices
(`_qubit_index_edges` in the notebook). -/
def qubit_index_edges (devQubits : List GridQubit)
    (devEdges : List (GridQubit × GridQubit)) : List (Nat × Nat) :=
  devEdges.map fun e =>
    (qubit_to_index devQubits e.1, qubit_to_index devQubits e.2)

/-- tket's `ConnectivityPredicate`: every two-qubit operation of the
circuit acts along an edge of the architecture's coupling map (in either
direction). -/
def connectivity_ok (coupling : List (Nat × Nat)) (c : List TkOp) : Bool :=
  c.all fun op => match op with
    | .g1 _ => true
    | .g2 a b => decide ((a, b) ∈ coupling ∨ (b, a) ∈ coupling)

/-- `index_to_qubit[i]`: the device qubit at a secret index.  An
out-of-range index falls back to the origin qubit, a case the routing
flow never produces. -/
def qubit_at (devQubits : List GridQubit) (i : Nat) : GridQubit :=
  (index_to_qubit devQubits).getD i ⟨0, 0⟩

/-- `tk_to_cirq(unit.circuit).transform_qubits(lambda q: index_to_qubit[q.x])`:
the routed circuit mapped back onto grid qubits. -/
def routed_circuit (devQubits : List GridQubit) (c : List TkOp) : List Op :=
  c.map fun op => match op with
    | .g1 q => .g1 (qubit_at devQubits q)
    | .g2 a b => .g2 (qubit_at devQubits a) (qubit_at devQubits b)

theorem qubit_at_qubit_to_index (devQubits : List GridQubit)
    (q : GridQubit) (hq : q ∈ devQubits) :
    qubit_at devQubits (qubit_to_index devQubits q) = q := by
  have hmem : q ∈ index_to_qubit devQubits :=
    (index_to_qubit_perm devQubits).mem_iff.mpr hq
  have hlt : (index_to_qubit devQubits).indexOf q <
      (index_to_qubit devQubits).length :=
    List.indexOf_lt_length.mpr hmem
  unfold qubit_at qubit_to_index
  rw [List.getD_eq_getElem _ _ hlt]
  exact List.getElem_indexOf hlt

/-- C2: if the routed tket circuit satisfies the connectivity predicate
for the coupling map built from the device graph edges — exactly what the
`assert valid` after the pass sequence establishes — then every two-qubit
operation of the routed circuit, mapped back onto grid qubits, acts on a
pair of adjacent device qubits, so the notebook's adjacency assertion
passes. -/
theorem C2_routed_two_qubit_ops_adjacent (devQubits : List GridQubit)
    (devEdges : List (GridQubit × GridQubit)) (tkCircuit : List TkOp)
    (hnd : devQubits.Nodup)
    (hedges : ∀ e ∈ devEdges, e.1 ∈ devQubits ∧ e.2 ∈ devQubits ∧
        is_adjacent e.1 e.2 = true)
    (hvalid : connectivity_ok (qubit_index_edges devQubits devEdges)
        tkCircuit = true) :
    adjacency_check (routed_circuit devQubits tkCircuit) = true := by
  rw [adjacency_check, List.all_eq_true]
  intro op hop
  rw [routed_circuit, List.mem_map] at hop
  obtain ⟨tkop, htkmem, hmap⟩ := hop
  rw [connectivity_ok, List.all_eq_true] at hvalid
  have hv := hvalid tkop htkmem
  cases tkop with
  | g1 q => rw [← hmap]
  | g2 a b =>
    rw [← hmap]
    simp only [decide_eq_true_eq] at hv
    have key : ∀ x y : GridQubit, x ∈ devQubits → y ∈ devQubits →
        is_adjacent x y = true →
        is_adjacent (qubit_at devQubits (qubit_to_index devQubits x))
          (qubit_at devQubits (qubit_to_index devQubits y)) = true := by
      intro x y hx hy hadj
      rw [qubit_at_qubit_to_index _ _ hx, qubit_at_qubit_to_index _ _ hy]
      exact hadj
    rcases hv with hv | hv
    · rw [qubit_index_edges, List.mem_map] at hv
      obtain ⟨e, hemem, heq⟩ := hv
      obtain ⟨he1, he2, headj⟩ := hedges e hemem
      have ha : a = qubit_to_index devQubits e.1 :=
        (congrArg Prod.fst heq).symm
      have hb : b = qubit_to_index devQubits e.2 :=
        (congrArg Prod.snd heq).symm
      rw [ha, hb]
      exact key e.1 e.2 he1 he2 headj
    · rw [qubit_index_edges, List.mem_map] at hv
      obtain ⟨e, hemem, heq⟩ := hv
      obtain ⟨he1, he2, headj⟩ := hedges e hemem
      have hb : b = qubit_to_index devQubits e.1 :=
        (congrArg Prod.fst heq).symm
      have ha : a = qubit_to_index devQubits e.2 :=
        (congrArg Prod.snd heq).symm
      rw [ha, hb]
      exact key e.2 e.1 he2 he1 (is_adjacent_symm e.1 e.2 ▸ headj)

/-- Closed witness for C2 on a two-qubit device with one edge. -/
theorem C2_routed_two_qubit_ops_adjacent_witness :
    ([⟨0, 0⟩, ⟨0, 1⟩] : List GridQubit).Nodup ∧
    (∀ e ∈ ([(⟨0, 0⟩, ⟨0, 1⟩)] : List (GridQubit × GridQubit)),
        e.1 ∈ ([⟨0, 0⟩, ⟨0, 1⟩] : List GridQubit) ∧
        e.2 ∈ ([⟨0, 0⟩, ⟨0, 1⟩] : List GridQubit) ∧
        is_adjacent e.1 e.2 = true) ∧
    connectivity_ok (qubit_index_edges [⟨0, 0⟩, ⟨0, 1⟩]
        [(⟨0, 0⟩, ⟨0, 1⟩)]) [TkOp.g2 1 0] = true ∧
    adjacency_check (routed_circuit [⟨0, 0⟩, ⟨0, 1⟩] [TkOp.g2 1 0]) = true :=
  ⟨by decide, by decide, by decide,
    C2_routed_two_qubit_ops_adjacent [⟨0, 0⟩, ⟨0, 1⟩] [(⟨0, 0⟩, ⟨0, 1⟩)]
      [TkOp.g2 1 0] (by decide) (by decide) (by decide)⟩

/-- The state a tket pass acts on: the compilation unit, carrying the
circuit being compiled.  The unit's predicate list is fixed in the
notebook to the single `ConnectivityPredicate`, checked by
`check_all_predicates` below. -/
structure CompilationUnit where
  circuit : List TkOp
deriving DecidableEq, Repr

/-- `SequencePass(ps).apply(unit)`: apply the passes in list order. -/
def apply_sequence_pass (ps : List (CompilationUnit → CompilationUnit))
    (u : CompilationUnit) : CompilationUnit :=
  ps.foldl (fun s p => p s) u

/-- `unit.check_all_predicates()` for a unit whose only predicate is the
device's `ConnectivityPredicate`. -/
def check_all_predicates (coupling : List (Nat × Nat))
    (u : CompilationUnit) : Bool :=
  connectivity_ok coupling u.circuit

/-- C4: the notebook's `SequencePass([PlacementPass(...), RoutingPass(...)])`
applies the placement pass first and the routing pass second; and if the
routing pass establishes the device connectivity predicate (its contract),
then after the pass sequence the compilation unit satisfies the
connectivity predicate, so `assert valid` passes. -/
theorem C4_placement_then_routing_satisfies_predicate
    (placement routing : CompilationUnit → CompilationUnit)
    (u : CompilationUnit) (coupling : List (Nat × Nat))
    (hrouting : ∀ v : CompilationUnit,
        connectivity_ok coupling (routing v).circuit = true) :
    apply_sequence_pass [placement, routing] u = routing (placement u) ∧
    check_all_predicates coupling
      (apply_sequence_pass [placement, routing] u) = true := by
  refine ⟨rfl, ?_⟩
  show check_all_predicates coupling (routing (placement u)) = true
  exact hrouting (placement u)

/-- Closed witness for C4 with a routing pass that empties the circuit. -/
theorem C4_placement_then_routing_satisfies_predicate_witness :
    (∀ v : CompilationUnit,
        connectivity_ok [] ((fun _ : CompilationUnit =>
          CompilationUnit.mk []) v).circuit = true) ∧
    (apply_sequence_pass [id, fun _ => CompilationUnit.mk []]
        (CompilationUnit.mk [TkOp.g2 0 1]) =
      (fun _ : CompilationUnit => CompilationUnit.mk [])
        (id (CompilationUnit.mk [TkOp.g2 0 1])) ∧
    check_all_predicates []
      (apply_sequence_pass [id, fun _ => CompilationUnit.mk []]
        (CompilationUnit.mk [TkOp.g2 0 1])) = true) :=
  ⟨fun _ => rfl,
    C4_placement_then_routing_satisfies_predicate id
      (fun _ => CompilationUnit.mk []) (CompilationUnit.mk [TkOp.g2 0 1])
      [] (fun _ => rfl)⟩

/-- A tket qubit: a register name with a tuple of integer indices.  Only
the index tuple matters to the notebook's decoding helper. -/
structure TkQubit where
  index : List Nat
deriving DecidableEq, Repr

/-- `tk_to_i`: return the sole index component of a tket qubit; the
`assert len(i) == 1, i` raises an `AssertionError` carrying the tuple
when the tuple does not have length exactly one. -/
def tk_to_i (tk : TkQubit) : Except (List Nat) Nat :=
  if tk.index.length = 1 then .ok (tk.index.getD 0 0) else .error tk.index

/-- Decode one entry of `unit.initial_map` / `unit.final_map`: both the
logical node and the device-index node go through `tk_to_i`. -/
def decode_entry (p : TkQubit × TkQubit) :
    Except (List Nat) (Nat × Nat) := do
  let a ← tk_to_i p.1
  let b ← tk_to_i p.2
  return (a, b)

/-- Decode a whole qubit map, entry by entry, propagating the first
assertion failure. -/
def decode_qubit_map :
    List (TkQubit × TkQubit) → Except (List Nat) (List (Nat × Nat))
  | [] => .ok []
  | p :: rest => do
    let d ← decode_entry p
    let ds ← decode_qubit_map rest
    return (d :: ds)

/-- C8: `tk_to_i` returns the sole index component of a single-component
tket qubit and raises (models as `Except.error`) on any index tuple whose
length is not exactly one; when every node of a qubit map has a
single-component index, decoding the map is total (never hits the error
branch). -/
theorem C8_tk_to_i_sole_component_and_total :
    (∀ tk : TkQubit, ∀ x : Nat, tk.index = [x] → tk_to_i tk = .ok x) ∧
    (∀ tk : TkQubit, tk.index.length ≠ 1 → tk_to_i tk = .error tk.index) ∧
    (∀ l : List (TkQubit × TkQubit),
        (∀ p ∈ l, p.1.index.length = 1 ∧ p.2.index.length = 1) →
        ∃ r, decode_qubit_map l = .ok r) := by
  have hok : ∀ tk : TkQubit, tk.index.length = 1 →
      ∃ x, tk_to_i tk = .ok x := by
    intro tk h
    exact ⟨tk.index.getD 0 0, by rw [tk_to_i, if_pos h]⟩
  refine ⟨?_, ?_, ?_⟩
  · intro tk x hx
    rw [tk_to_i, if_pos (by rw [hx]; rfl)]
    rw [hx]
    rfl
  · intro tk h
    rw [tk_to_i, if_neg h]
  · intro l hl
    induction l with
    | nil => exact ⟨[], rfl⟩
    | cons p rest ih =>
      obtain ⟨h1, h2⟩ := hl p (List.mem_cons_self p rest)
      obtain ⟨a, ha⟩ := hok p.1 h1
      obtain ⟨b, hb⟩ := hok p.2 h2
      obtain ⟨rs, hrs⟩ := ih fun q hq => hl q (List.mem_cons_of_mem p hq)
      refine ⟨(a, b) :: rs, ?_⟩
      rw [decode_qubit_map]
      show (do
        let d ← decode_entry p
        let ds ← decode_qubit_map rest
        return (d :: ds)) = Except.ok ((a, b) :: rs)
      rw [decode_entry, ha, hb, hrs]
      rfl

/-- Closed witness for C8 at concrete index tuples. -/
theorem C8_tk_to_i_sole_component_and_total_witness :
    (TkQubit.mk [7]).index = [7] ∧ tk_to_i ⟨[7]⟩ = .ok 7 ∧
    (TkQubit.mk [6, 1]).index.length ≠ 1 ∧
    tk_to_i ⟨[6, 1]⟩ = .error [6, 1] ∧
    (∀ p ∈ ([(⟨[0]⟩, ⟨[3]⟩)] : List (TkQubit × TkQubit)),
        p.1.index.length = 1 ∧ p.2.index.length = 1) ∧
    (∃ r, decode_qubit_map [(⟨[0]⟩, ⟨[3]⟩)] = .ok r) :=
  ⟨rfl, C8_tk_to_i_sole_component_and_total.1 ⟨[7]⟩ 7 rfl,
    by decide,
    C8_tk_to_i_sole_component_and_total.2.1 ⟨[6, 1]⟩ (by decide),
    by decide,
    C8_tk_to_i_sole_component_and_total.2.2 [(⟨[0]⟩, ⟨[3]⟩)] (by decide)⟩

/-- `circuit_qubits = cirq.LineQubit.range(10, 20)`: the ten logical
line qubits, identified by their integer ids 10 through 19. -/
def circuit_qubits : List Nat :=
  (List.range 10).map (fun k => 10 + k)

/-- Python dictionary lookup for a dict built from a list of key/value
pairs by comprehension: on duplicate keys the last entry wins. -/
def dict_lookup {α β : Type} [DecidableEq α] (kvs : List (α × β))
    (k : α) : Option β :=
  (kvs.reverse.find? fun p => decide (p.1 = k)).map Prod.snd

theorem find?_eq_of_nodup_keys {α β : Type} [DecidableEq α]
    (l : List (α × β)) (k : α) (v : β) (hnd : (l.map Prod.fst).Nodup)
    (hmem : (k, v) ∈ l) :
    l.find? (fun p => decide (p.1 = k)) = some (k, v) := by
  induction l with
  | nil => exact absurd hmem (List.not_mem_nil _)
  | cons p rest ih =>
    rw [List.map_cons, List.nodup_cons] at hnd
    by_cases hpk : p.1 = k
    · have hp : p = (k, v) := by
        rcases List.mem_cons.mp hmem with h | h
        · exact h.symm
        · exact absurd (hpk ▸ List.mem_map_of_mem Prod.fst h) hnd.1
      rw [List.find?_cons_of_pos _ (by rw [hpk]; simp), hp]
    · have hmem' : (k, v) ∈ rest := by
        rcases List.mem_cons.mp hmem with h | h
        · exact absurd (congrArg Prod.fst h.symm) hpk
        · exact h
      rw [List.find?_cons_of_neg _ (by simpa using hpk)]
      exact ih hnd.2 hmem'

theorem dict_lookup_eq_of_mem {α β : Type} [DecidableEq α]
    (l : List (α × β)) (k : α) (v : β) (hnd : (l.map Prod.fst).Nodup)
    (hmem : (k, v) ∈ l) : dict_lookup l k = some v := by
  unfold dict_lookup
  rw [find?_eq_of_nodup_keys l.reverse k v
    (by simpa using hnd) (List.mem_reverse.mpr hmem)]
  rfl

/-- The entries of the notebook dict
`final_to_initial_map = {final_map[cq]: initial_map[cq] for cq in circuit_qubits}`.
`im` and `fm` are the decoded `initial_map` and `final_map`. -/
def final_to_initial_entries (im fm : Nat → GridQubit) :
    List (GridQubit × GridQubit) :=
  circuit_qubits.map fun cq => (fm cq, im cq)

/-- `final_to_initial_map[q]`.  A key absent from the dict (which raises
`KeyError` in Python) falls back to the origin qubit; the hypotheses of
the theorems below rule that case out. -/
def final_to_initial_map (im fm : Nat → GridQubit) (q : GridQubit) :
    GridQubit :=
  (dict_lookup (final_to_initial_entries im fm) q).getD ⟨0, 0⟩

/-- `initial_qubits = [initial_map[cq] for cq in circuit_qubits]`. -/
def initial_qubits (im : Nat → GridQubit) : List GridQubit :=
  circuit_qubits.map im

/-- `final_permutation = [initial_qubits.index(final_to_initial_map[q]) for q in initial_qubits]`. -/
def final_permutation (im fm : Nat → GridQubit) : List Nat :=
  (initial_qubits im).map fun q =>
    (initial_qubits im).indexOf (final_to_initial_map im fm q)

theorem circuit_qubits_nodup : circuit_qubits.Nodup := by decide

theorem circuit_qubits_length : circuit_qubits.length = 10 := by decide

theorem initial_qubits_nodup (im : Nat → GridQubit)
    (him : ∀ a ∈ circuit_qubits, ∀ b ∈ circuit_qubits,
      im a = im b → a = b) : (initial_qubits im).Nodup :=
  circuit_qubits_nodup.map_on him

theorem final_to_initial_entries_keys_nodup (im fm : Nat → GridQubit)
    (hfm : ∀ a ∈ circuit_qubits, ∀ b ∈ circuit_qubits,
      fm a = fm b → a = b) :
    ((final_to_initial_entries im fm).map Prod.fst).Nodup := by
  have heq : (final_to_initial_entries im fm).map Prod.fst =
      circuit_qubits.map fm := by
    unfold final_to_initial_entries
    rw [List.map_map]
    rfl
  rw [heq]
  exact circuit_qubits_nodup.map_on hfm

theorem final_to_initial_map_apply (im fm : Nat → GridQubit)
    (hfm : ∀ a ∈ circuit_qubits, ∀ b ∈ circuit_qubits,
      fm a = fm b → a = b)
    (cq : Nat) (hcq : cq ∈ circuit_qubits) :
    final_to_initial_map im fm (fm cq) = im cq := by
  unfold final_to_initial_map
  rw [dict_lookup_eq_of_mem _ (fm cq) (im cq)
    (final_to_initial_entries_keys_nodup im fm hfm)
    (List.mem_map_of_mem _ hcq)]
  rfl

/-- C9: provided the decoded `initial_map` and `final_map` are injective
on the ten circuit qubits and have the same image set of device qubits,
`final_permutation` is a permutation of the indices `0..9`: it is a
rearrangement of `range 10`, and each index occurs exactly once. -/
theorem C9_final_permutation_is_permutation (im fm : Nat → GridQubit)
    (him : ∀ a ∈ circuit_qubits, ∀ b ∈ circuit_qubits,
      im a = im b → a = b)
    (hfm : ∀ a ∈ circuit_qubits, ∀ b ∈ circuit_qubits,
      fm a = fm b → a = b)
    (himg : ∀ a ∈ circuit_qubits, ∃ b ∈ circuit_qubits, fm b = im a)
    (himg' : ∀ a ∈ circuit_qubits, ∃ b ∈ circuit_qubits, im b = fm a) :
    (final_permutation im fm).Perm (List.range 10) ∧
    (∀ k < 10, (final_permutation im fm).count k = 1) := by
  have hiqnd : (initial_qubits im).Nodup := initial_qubits_nodup im him
  have hiqlen : (initial_qubits im).length = 10 := by
    unfold initial_qubits
    rw [List.length_map]
    exact circuit_qubits_length
  have hfplen : (final_permutation im fm).length = 10 := by
    unfold final_permutation
    rw [List.length_map]
    exact hiqlen
  -- the value of each entry of final_permutation
  have hentry : ∀ i : Nat, ∀ hi : i < 10,
      ∃ j : Nat, ∃ hj : j < 10,
        fm (circuit_qubits.getD j 0) = im (circuit_qubits.getD i 0) ∧
        (final_permutation im fm).getD i 0 = j := by
    intro i hi
    have hicq : i < circuit_qubits.length := by
      rw [circuit_qubits_length]; exact hi
    obtain ⟨cq', hcq', hfmcq'⟩ :=
      himg circuit_qubits[i] (circuit_qubits.getElem_mem hicq)
    have hjlt : circuit_qubits.indexOf cq' < 10 := by
      rw [← circuit_qubits_length]
      exact List.indexOf_lt_length.mpr hcq'
    have hcqpos : circuit_qubits.indexOf cq' <
        circuit_qubits.length := List.indexOf_lt_length.mpr hcq'
    refine ⟨circuit_qubits.indexOf cq', hjlt, ?_, ?_⟩
    · rw [List.getD_eq_getElem _ _ hcqpos, List.getD_eq_getElem _ _ hicq,
        List.getElem_indexOf]
      exact hfmcq'
    · have hiiq : i < (initial_qubits im).length := by
        rw [hiqlen]; exact hi
      have hifp : i < (final_permutation im fm).length := by
        rw [hfplen]; exact hi
      rw [List.getD_eq_getElem _ _ hifp]
      have h1 : (final_permutation im fm)[i] =
          (initial_qubits im).indexOf
            (final_to_initial_map im fm (initial_qubits im)[i]) := by
        unfold final_permutation
        rw [List.getElem_map]
      have h2 : (initial_qubits im)[i] = im circuit_qubits[i] := by
        unfold initial_qubits
        rw [List.getElem_map]
      have h3 : final_to_initial_map im fm (im circuit_qubits[i]) =
          im cq' := by
        rw [← hfmcq']
        exact final_to_initial_map_apply im fm hfm cq' hcq'
      rw [h1, h2, h3]
      have hcqiq : circuit_qubits.indexOf cq' <
          (initial_qubits im).length := by
        rw [hiqlen, ← circuit_qubits_length]; exact hcqpos
      have h4 : im cq' = (initial_qubits im)[circuit_qubits.indexOf cq'] := by
        unfold initial_qubits
        rw [List.getElem_map, List.getElem_indexOf]
      rw [h4]
      exact List.indexOf_getElem hiqnd _ _
  have hlt : ∀ x ∈ final_permutation im fm, x < 10 := by
    intro x hx
    obtain ⟨i, hi, hxeq⟩ := List.getElem_of_mem hx
    have hgd : (final_permutation im fm).getD i 0 = x := by
      rw [List.getD_eq_getElem _ _ hi]
      exact hxeq
    obtain ⟨j, hj, _, hval⟩ := hentry i (by rw [← hfplen]; exact hi)
    rw [← hgd, hval]
    exact hj
  have hndfp : (final_permutation im fm).Nodup := by
    rw [List.nodup_iff_injective_get]
    intro a b hab
    obtain ⟨j1, hj1, hfm1, hval1⟩ :=
      hentry a.val (by rw [← hfplen]; exact a.isLt)
    obtain ⟨j2, hj2, hfm2, hval2⟩ :=
      hentry b.val (by rw [← hfplen]; exact b.isLt)
    have hgd : (final_permutation im fm).getD a.val 0 =
        (final_permutation im fm).getD b.val 0 := by
      rw [List.getD_eq_getElem _ _ a.isLt, List.getD_eq_getElem _ _ b.isLt]
      simpa [List.get_eq_getElem] using hab
    have hj12 : j1 = j2 := by
      rw [hval1, hval2] at hgd
      exact hgd
    have hcqj : circuit_qubits.getD j1 0 = circuit_qubits.getD j2 0 := by
      rw [hj12]
    have him12 : im (circuit_qubits.getD a.val 0) =
        im (circuit_qubits.getD b.val 0) := by
      rw [← hfm1, ← hfm2, hcqj]
    have haq : a.val < circuit_qubits.length := by
      rw [circuit_qubits_length]; exact a.isLt.trans_eq hfplen
    have hbq : b.val < circuit_qubits.length := by
      rw [circuit_qubits_length]; exact b.isLt.trans_eq hfplen
    rw [List.getD_eq_getElem _ _ haq, List.getD_eq_getElem _ _ hbq] at him12
    have hcqab : circuit_qubits[a.val] = circuit_qubits[b.val] :=
      him _ (circuit_qubits.getElem_mem _)
        _ (circuit_qubits.getElem_mem _) him12
    have := circuit_qubits_nodup.getElem_inj_iff.mp hcqab
    exact Fin.ext this
  have hperm : (final_permutation im fm).Perm (List.range 10) := by
    apply List.Subperm.perm_of_length_le
    · exact List.subperm_of_subset hndfp fun x hx =>
        List.mem_range.mpr (hlt x hx)
    · rw [List.length_range, hfplen]
  refine ⟨hperm, ?_⟩
  intro k hk
  rw [hperm.count_eq]
  exact List.count_eq_one_of_mem (List.nodup_range 10)
    (List.mem_range.mpr hk)

/-- A concrete decoded initial map for witnesses: logical qubit `k` on
grid qubit `(0, k)`. -/
def imEx : Nat → GridQubit := fun k => ⟨0, (k : Int)⟩

/-- A concrete decoded final map for witnesses: a cyclic shift of the
image of `imEx` over the columns 10..19. -/
def fmEx : Nat → GridQubit := fun k =>
  ⟨0, ((if k = 19 then 10 else k + 1 : Nat) : Int)⟩

/-- Closed witness for C9 with an injective initial map and a final map
that cyclically shifts the same image set. -/
theorem C9_final_permutation_is_permutation_witness :
    (∀ a ∈ circuit_qubits, ∀ b ∈ circuit_qubits,
      imEx a = imEx b → a = b) ∧
    (∀ a ∈ circuit_qubits, ∀ b ∈ circuit_qubits,
      fmEx a = fmEx b → a = b) ∧
    (∀ a ∈ circuit_qubits, ∃ b ∈ circuit_qubits, fmEx b = imEx a) ∧
    (∀ a ∈ circuit_qubits, ∃ b ∈ circuit_qubits, imEx b = fmEx a) ∧
    ((final_permutation imEx fmEx).Perm (List.range 10) ∧
      ∀ k < 10, (final_permutation imEx fmEx).count k = 1) :=
  ⟨by decide, by decide, by decide, by decide,
    C9_final_permutation_is_permutation imEx fmEx
      (by decide) (by decide) (by decide) (by decide)⟩

/-- The kinds of assert statements appearing in the notebook:
`assert valid` after the pass sequence, `assert len(i) == 1, i` inside
`tk_to_i`, the `assert a.is_adjacent(b)` loop over the routed circuit,
and `cirq.testing.assert_allclose_up_to_global_phase(...)`. -/
inductive AssertionSite
  | predicateValidity
  | indexLength
  | twoQubitAdjacency
  | unitaryAllClose
deriving DecidableEq, Repr

/-- A straight-line notebook statement acting on the run state: an
ordinary computation, or an assert.  The notebook has no try/except
anywhere, so the statement language has no handler construct. -/
inductive Stmt (σ : Type)
  | compute (f : σ → σ)
  | asrt (site : AssertionSite) (cond : σ → Bool)

/-- Run statements in order.  A failing assert raises `AssertionError`
(modelled as `Except.error` naming the failing site) and stops the run:
the remaining statements are never consulted. -/
def run_cells {σ : Type} : List (Stmt σ) → σ → Except AssertionSite σ
  | [], s => .ok s
  | .compute f :: rest, s => run_cells rest (f s)
  | .asrt site c :: rest, s =>
    if c s then run_cells rest s else .error site

/-- The assert sites syntactically present in a statement list. -/
def stmt_sites {σ : Type} : List (Stmt σ) → List AssertionSite
  | [] => []
  | .compute _ :: rest => stmt_sites rest
  | .asrt site _ :: rest => site :: stmt_sites rest

/-- The data the notebook's assert statements inspect, as produced by
the earlier cells of the run. -/
structure NotebookState where
  valid : Bool
  mapsDecodable : Bool
  routed : List Op
  unitaryClose : Bool

/-- The notebook's assert statements, in the order a run executes them:
`assert valid` (cell 14), the `tk_to_i` length assert exercised while
decoding the maps (cells 17 and 19), the two-qubit adjacency loop
(cell 24) and the unitary closeness assert (cell 25). -/
def notebook_checks : List (Stmt NotebookState) :=
  [ .asrt .predicateValidity (fun s => s.valid),
    .asrt .indexLength (fun s => s.mapsDecodable),
    .asrt .twoQubitAdjacency (fun s => adjacency_check s.routed),
    .asrt .unitaryAllClose (fun s => s.unitaryClose) ]

/-- C5, counterexample: the notebook's assert sites are not only the
adjacency assert and the unitary-closeness assert; the predicate-validity
assert (`assert valid`) is a further correctness assertion executed
during a run. -/
theorem C5_extra_assertion_sites_exist :
    AssertionSite.predicateValidity ∈ stmt_sites notebook_checks ∧
    AssertionSite.predicateValidity ≠ AssertionSite.twoQubitAdjacency ∧
    AssertionSite.predicateValidity ≠ AssertionSite.unitaryAllClose ∧
    stmt_sites notebook_checks ≠
      [AssertionSite.twoQubitAdjacency, AssertionSite.unitaryAllClose] := by
  decide

/-- C5, amended: a notebook run that completes successfully passes
through exactly four distinct assert sites, in order: predicate
validity, index-length decoding, two-qubit adjacency, and unitary
closeness. -/
theorem C5_notebook_has_exactly_four_assertion_sites
    (s : NotebookState)
    (h : ∃ s' : NotebookState, run_cells notebook_checks s = .ok s') :
    stmt_sites notebook_checks =
      [AssertionSite.predicateValidity, AssertionSite.indexLength,
        AssertionSite.twoQubitAdjacency, AssertionSite.unitaryAllClose] ∧
    (stmt_sites notebook_checks).Nodup ∧
    s.valid = true ∧ s.mapsDecodable = true ∧
    adjacency_check s.routed = true ∧ s.unitaryClose = true := by
  obtain ⟨s', hs⟩ := h
  have hv : s.valid = true := by
    by_contra hc
    rw [Bool.not_eq_true] at hc
    simp [notebook_checks, run_cells, hc] at hs
  have hm : s.mapsDecodable = true := by
    by_contra hc
    rw [Bool.not_eq_true] at hc
    simp [notebook_checks, run_cells, hv, hc] at hs
  have ha : adjacency_check s.routed = true := by
    by_contra hc
    rw [Bool.not_eq_true] at hc
    simp [notebook_checks, run_cells, hv, hm, hc] at hs
  have hu : s.unitaryClose = true := by
    by_contra hc
    rw [Bool.not_eq_true] at hc
    simp [notebook_checks, run_cells, hv, hm, ha, hc] at hs
  exact ⟨by decide, by decide, hv, hm, ha, hu⟩

/-- Closed witness for the amended C5 at a state whose checks all pass. -/
theorem C5_notebook_has_exactly_four_assertion_sites_witness :
    (∃ s' : NotebookState,
      run_cells notebook_checks (NotebookState.mk true true [] true) =
        .ok s') ∧
    (stmt_sites notebook_checks =
      [AssertionSite.predicateValidity, AssertionSite.indexLength,
        AssertionSite.twoQubitAdjacency, AssertionSite.unitaryAllClose] ∧
    (stmt_sites notebook_checks).Nodup ∧
    (NotebookState.mk true true [] true).valid = true ∧
    (NotebookState.mk true true [] true).mapsDecodable = true ∧
    adjacency_check (NotebookState.mk true true [] true).routed = true ∧
    (NotebookState.mk true true [] true).unitaryClose = true) :=
  ⟨⟨NotebookState.mk true true [] true, rfl⟩,
    C5_notebook_has_exactly_four_assertion_sites
      (NotebookState.mk true true [] true)
      ⟨NotebookState.mk true true [] true, rfl⟩⟩

/-- C6: a failing assertion halts the run with an uncaught
`AssertionError` and nothing after the failing assertion runs: whatever
statements follow, the run's outcome is the error naming the failing
site.  Stated for both checks the claim names: the adjacency assertion
and the unitary-equivalence assertion. -/
theorem C6_assertion_failure_halts_execution (s : NotebookState)
    (rest : List (Stmt NotebookState)) :
    (s.valid = true → s.mapsDecodable = true →
      adjacency_check s.routed = false →
      run_cells (notebook_checks ++ rest) s =
        .error AssertionSite.twoQubitAdjacency) ∧
    (s.valid = true → s.mapsDecodable = true →
      adjacency_check s.routed = true → s.unitaryClose = false →
      run_cells (notebook_checks ++ rest) s =
        .error AssertionSite.unitaryAllClose) := by
  constructor
  · intro h1 h2 h3
    simp [notebook_checks, run_cells, h1, h2, h3]
  · intro h1 h2 h3 h4
    simp [notebook_checks, run_cells, h1, h2, h3, h4]

/-- Closed witness for C6: a state with a non-adjacent two-qubit
operation halts at the adjacency assertion even with a trailing
statement present. -/
theorem C6_assertion_failure_halts_execution_witness :
    (NotebookState.mk true true [Op.g2 ⟨0, 0⟩ ⟨5, 5⟩] true).valid = true ∧
    (NotebookState.mk true true [Op.g2 ⟨0, 0⟩ ⟨5, 5⟩]
      true).mapsDecodable = true ∧
    adjacency_check (NotebookState.mk true true
      [Op.g2 ⟨0, 0⟩ ⟨5, 5⟩] true).routed = false ∧
    run_cells (notebook_checks ++ [Stmt.compute id])
      (NotebookState.mk true true [Op.g2 ⟨0, 0⟩ ⟨5, 5⟩] true) =
        .error AssertionSite.twoQubitAdjacency :=
  ⟨rfl, rfl, by decide,
    (C6_assertion_failure_halts_execution
      (NotebookState.mk true true [Op.g2 ⟨0, 0⟩ ⟨5, 5⟩] true)
      [Stmt.compute id]).1 rfl rfl (by decide)⟩

/-- GitHub Actions event kinds relevant to the workflow trigger model. -/
inductive GHEvent
  | push
  | pullRequest
  | schedule
  | workflowDispatch
deriving DecidableEq, Repr

/-- One trigger of a workflow: an event, filtered to a branch list. -/
structure WorkflowTrigger where
  event : GHEvent
  branches : List String

/-- The `Deploy Docs` workflow's `on:` block: a single trigger,
`push` filtered to the branch list `[master]`. -/
def deploy_docs_triggers : List WorkflowTrigger :=
  [⟨.push, ["master"]⟩]

/-- Whether the workflow fires for an event on a branch. -/
def triggers_on (e : GHEvent) (branch : String) : Bool :=
  deploy_docs_triggers.any fun t =>
    decide (t.event = e) && t.branches.contains branch

/-- C7, counterexample: the workflow is not configured for a branch
named `main`; a push to `main` does not trigger it, while a push to
`master` does. -/
theorem C7_push_to_main_does_not_trigger :
    triggers_on GHEvent.push "main" = false ∧
    triggers_on GHEvent.push "master" = true := by
  decide

/-- C7, amended: the CI workflow is triggered on a push to the `master`
branch, and on no other event and no other branch. -/
theorem C7_triggered_only_on_push_to_master (e : GHEvent)
    (branch : String) :
    triggers_on e branch = true ↔ e = GHEvent.push ∧ branch = "master" := by
  unfold triggers_on deploy_docs_triggers
  cases e <;>
    simp [List.contains, List.any, eq_comm]

/-- Closed witness for the amended C7 at the push/master instance. -/
theorem C7_triggered_only_on_push_to_master_witness :
    triggers_on GHEvent.push "master" = true :=
  (C7_triggered_only_on_push_to_master GHEvent.push "master").mpr
    ⟨rfl, rfl⟩

/-- A state vector over `n` qubits: an amplitude for each assignment of
the `n` wires of the chosen qubit order. -/
def QState (n : Nat) : Type := (Fin n → Bool) → Complex

/-- A circuit unitary over `n` qubits, as the linear operator it applies
to state vectors. -/
def QOp (n : Nat) : Type := QState n → QState n

/-- Semantics of `cca.LinearPermutationGate(num_qubits=n, permutation=p)`
acting on a qubit order: the gate moves the qubit at position `i` to
position `p i`, so the output amplitude at basis state `b` is the input
amplitude at the basis state `fun i => b (p i)`. -/
def permute_gate_op (n : Nat) (p : Fin n → Fin n) : QOp n :=
  fun v b => v fun i => b (p i)

/-- The logical qubit at position `j` of `circuit_qubits`
(`cirq.LineQubit(10 + j)`). -/
def circuit_qubit (j : Fin 10) : Nat := 10 + j.val

/-- `final_permutation` read as a function on wire positions.  An entry
out of range (impossible under the theorems' hypotheses, and rejected by
`LinearPermutationGate` itself) is truncated mod 10. -/
def final_permutation_fun (im fm : Nat → GridQubit) : Fin 10 → Fin 10 :=
  fun i => ⟨(final_permutation im fm).getD i.val 0 % 10,
    Nat.mod_lt _ (by omega)⟩

/-- The unitary of
`rcircuit_with_perm = routed_circuit.copy(); rcircuit_with_perm.append(permute_gate(initial_qubits, final_permutation))`
over the qubit order `initial_qubits`: the permutation gate applied
after the routed circuit. -/
def rcircuit_with_perm_op (routedOp : QOp 10) (im fm : Nat → GridQubit) :
    QOp 10 :=
  fun v => permute_gate_op 10 (final_permutation_fun im fm) (routedOp v)

theorem circuit_qubit_getD (j : Fin 10) :
    circuit_qubits.getD j.val 0 = circuit_qubit j := by
  have hj : j.val < circuit_qubits.length := by
    rw [circuit_qubits_length]; exact j.isLt
  rw [List.getD_eq_getElem _ _ hj]
  unfold circuit_qubits circuit_qubit
  rw [List.getElem_map, List.getElem_range]

theorem circuit_qubit_mem (j : Fin 10) :
    circuit_qubit j ∈ circuit_qubits := by
  unfold circuit_qubit circuit_qubits
  rw [List.mem_map]
  exact ⟨j.val, List.mem_range.mpr j.isLt, rfl⟩

/-- The entry of `final_permutation` at the wire holding logical qubit
`j`'s final position points back at wire `j`: composing the appended
permutation gate with the wire shuffle the routing produced yields the
identity relabelling. -/
theorem final_permutation_getD_eq (im fm : Nat → GridQubit)
    (him : ∀ a ∈ circuit_qubits, ∀ b ∈ circuit_qubits,
      im a = im b → a = b)
    (hfm : ∀ a ∈ circuit_qubits, ∀ b ∈ circuit_qubits,
      fm a = fm b → a = b)
    (t : Fin 10 → Fin 10)
    (ht : ∀ j : Fin 10, im (circuit_qubit (t j)) = fm (circuit_qubit j))
    (j : Fin 10) :
    (final_permutation im fm).getD (t j).val 0 = j.val := by
  have hiqnd : (initial_qubits im).Nodup := initial_qubits_nodup im him
  have hiqlen : (initial_qubits im).length = 10 := by
    unfold initial_qubits
    rw [List.length_map]
    exact circuit_qubits_length
  have hfplen : (final_permutation im fm).length = 10 := by
    unfold final_permutation
    rw [List.length_map]
    exact hiqlen
  have hti : (t j).val < (final_permutation im fm).length := by
    rw [hfplen]; exact (t j).isLt
  have htiq : (t j).val < (initial_qubits im).length := by
    rw [hiqlen]; exact (t j).isLt
  have hjq : j.val < (initial_qubits im).length := by
    rw [hiqlen]; exact j.isLt
  rw [List.getD_eq_getElem _ _ hti]
  have h1 : (final_permutation im fm)[(t j).val] =
      (initial_qubits im).indexOf (final_to_initial_map im fm
        ((initial_qubits im)[(t j).val])) := by
    unfold final_permutation
    rw [List.getElem_map]
  have h2 : (initial_qubits im)[(t j).val] = im (circuit_qubit (t j)) := by
    have htcq : (t j).val < circuit_qubits.length := by
      rw [circuit_qubits_length]; exact (t j).isLt
    unfold initial_qubits
    rw [List.getElem_map]
    refine congrArg im ?_
    rw [← circuit_qubit_getD (t j), List.getD_eq_getElem _ _ htcq]
  have h3 : final_to_initial_map im fm (fm (circuit_qubit j)) =
      im (circuit_qubit j) :=
    final_to_initial_map_apply im fm hfm _ (circuit_qubit_mem j)
  have h4 : im (circuit_qubit j) = (initial_qubits im)[j.val] := by
    have hjcq : j.val < circuit_qubits.length := by
      rw [circuit_qubits_length]; exact j.isLt
    unfold initial_qubits
    rw [List.getElem_map]
    refine (congrArg im ?_).symm
    rw [← circuit_qubit_getD j, List.getD_eq_getElem _ _ hjcq]
  rw [h1, h2, ht j, h3, h4]
  exact List.indexOf_getElem hiqnd _ _

/-- C1: for the routed circuit produced for the notebook's circuit and
device, the unitary of the routed circuit with the final permutation gate
appended, computed over the `initial_qubits` order, equals the original
circuit's unitary over the `circuit_qubits` order up to a global phase,
within absolute tolerance `1e-8` — here exactly, with phase factor `1`.
The decoded maps enter through their injectivity and the wire-tracking
contract of the routing pass: logical qubit `j` enters the routed
circuit at the wire holding `initial_map` position `j` and leaves at the
wire `t j` holding its final position, so the routed circuit's unitary
over the `initial_qubits` order is the original unitary followed by the
wire relabelling along `t`. -/
theorem C1_routed_plus_permutation_unitary_matches_original
    (im fm : Nat → GridQubit) (U routedOp : QOp 10) (t : Fin 10 → Fin 10)
    (him : ∀ a ∈ circuit_qubits, ∀ b ∈ circuit_qubits,
      im a = im b → a = b)
    (hfm : ∀ a ∈ circuit_qubits, ∀ b ∈ circuit_qubits,
      fm a = fm b → a = b)
    (ht : ∀ j : Fin 10, im (circuit_qubit (t j)) = fm (circuit_qubit j))
    (hrouted : ∀ (v : QState 10) (h : Fin 10 → Bool),
      routedOp v h = U v fun j => h (t j)) :
    ∃ z : Complex, Complex.abs z = 1 ∧
      ∀ (v : QState 10) (b : Fin 10 → Bool),
        Complex.abs (rcircuit_with_perm_op routedOp im fm v b -
          z * U v b) ≤ 1e-8 := by
  refine ⟨1, by simp, ?_⟩
  intro v b
  have hval : rcircuit_with_perm_op routedOp im fm v b = U v b := by
    show permute_gate_op 10 (final_permutation_fun im fm)
      (routedOp v) b = U v b
    show routedOp v (fun i => b (final_permutation_fun im fm i)) = U v b
    rw [hrouted]
    congr 1
    funext j
    congr 1
    apply Fin.ext
    show (final_permutation im fm).getD (t j).val 0 % 10 = j.val
    rw [final_permutation_getD_eq im fm him hfm t ht j]
    exact Nat.mod_eq_of_lt j.isLt
  rw [hval, one_mul, sub_self]
  rw [map_zero]
  norm_num

/-- Closed witness for C1: the cyclic-shift final map `fmEx`, the exit
wire map `t j = j + 1 mod 10`, and a routed operator defined as the
original operator followed by that wire relabelling. -/
theorem C1_routed_plus_permutation_unitary_matches_original_witness :
    (∀ a ∈ circuit_qubits, ∀ b ∈ circuit_qubits,
      imEx a = imEx b → a = b) ∧
    (∀ a ∈ circuit_qubits, ∀ b ∈ circuit_qubits,
      fmEx a = fmEx b → a = b) ∧
    (∀ j : Fin 10, imEx (circuit_qubit
      ((fun i : Fin 10 => (⟨(i.val + 1) % 10, by omega⟩ : Fin 10)) j)) =
      fmEx (circuit_qubit j)) ∧
    (∃ z : Complex, Complex.abs z = 1 ∧
      ∀ (v : QState 10) (b : Fin 10 → Bool),
        Complex.abs (rcircuit_with_perm_op
          (fun (v : QState 10) (h : Fin 10 → Bool) =>
            (fun w => w) v fun j : Fin 10 =>
              h ((⟨(j.val + 1) % 10, by omega⟩ : Fin 10)))
          imEx fmEx v b - z * (fun w => w) v b) ≤ 1e-8) :=
  ⟨by decide, by decide, by decide,
    C1_routed_plus_permutation_unitary_matches_original imEx fmEx
      (fun w => w)
      (fun (v : QState 10) (h : Fin 10 → Bool) =>
        (fun w => w) v fun j : Fin 10 =>
          h ((⟨(j.val + 1) % 10, by omega⟩ : Fin 10)))
      (fun i : Fin 10 => (⟨(i.val + 1) % 10, by omega⟩ : Fin 10))
      (by decide) (by decide) (by decide) (fun v h => rfl)⟩

end RoutingWithTket
